import Mathlib

/-!
Verification of the sleep-tracker core logic: the interval store and the
toggle/merge/split algorithm of mainScreen.js (toggleSleepHour), the
date-keyed aggregation of graphScreen.js (getSleepDataForRange), the daily
occupancy expansion of updateDataAndRefreshChart, the dummy-data generator
(generateRandomSleepRanges), and a small state model of the persistence
behaviour of saveSleepData / getSleepData.

Intervals are pairs of hours.  All hour arithmetic in the source runs on
nonnegative integers on every reachable path (each JavaScript decrement is
guarded so the value stays nonnegative), so intervals are embedded as pairs
of naturals.
-/

namespace SleepTracker

/-- A sleep interval `[start, end)`, as the source's `[startHour, endHour]`
array pairs. -/
abbrev Iv := Nat × Nat

/-- Phase one of `toggleSleepHour`: scan for the first interval containing
`hour` (`hour >= start && hour < end`) and remove the hour from it:
delete a length-one interval, shrink from the left when `hour === start`,
shrink from the right when `hour === end - 1`, otherwise split.  Returns
`none` when no interval contains the hour (`isInRange` stays false). -/
def removeHour (hour : Nat) : List Iv → Option (List Iv)
  | [] => none
  | (s, e) :: rest =>
    if s ≤ hour ∧ hour < e then
      some (if e - s = 1 then rest
            else if hour = s then (s + 1, e) :: rest
            else if hour = e - 1 then (s, e - 1) :: rest
            else (s, hour) :: (hour + 1, e) :: rest)
    else
      match removeHour hour rest with
      | some l => some ((s, e) :: l)
      | none => none

/-- Phase two of `toggleSleepHour` (the `!isInRange` branch): scan for the
first interval with `hour === end` (extend its end by one) or
`hour + 1 === start` (extend its start down by one); `none` when no
interval could be extended (`merged` stays false). -/
def extendHour (hour : Nat) : List Iv → Option (List Iv)
  | [] => none
  | (s, e) :: rest =>
    if hour = e then some ((s, e + 1) :: rest)
    else if hour + 1 = s then some ((s - 1, e) :: rest)
    else
      match extendHour hour rest with
      | some l => some ((s, e) :: l)
      | none => none

/-- Comparator of the source's `updatedRanges.sort((a, b) => a[0] - b[0])`:
ascending by interval start. -/
def leStart (a b : Iv) : Prop := a.1 ≤ b.1

instance : DecidableRel leStart := fun a b => inferInstanceAs (Decidable (a.1 ≤ b.1))

instance : IsTotal Iv leStart := ⟨fun a b => Nat.le_total a.1 b.1⟩

instance : IsTrans Iv leStart := ⟨fun _ _ _ => Nat.le_trans⟩

/-- The sort step of `toggleSleepHour`; a stable sort by start, as
JavaScript's `Array.prototype.sort` with comparator `a[0] - b[0]`. -/
def sortRanges (l : List Iv) : List Iv := List.insertionSort leStart l

/-- One step of the final coalescing loop of `toggleSleepHour`: `a` is the
interval currently at position `i`; when `updatedRanges[i][1] >=
updatedRanges[i+1][0]` the pair is merged into `(first start, max of ends)`
and the scan re-checks the same position (`i--` after the `splice`),
otherwise the scan moves on. -/
def mergeInto (a : Iv) : List Iv → List Iv
  | [] => [a]
  | b :: rest =>
    if b.1 ≤ a.2 then mergeInto (a.1, max a.2 b.2) rest
    else a :: mergeInto b rest

/-- The final coalescing loop of `toggleSleepHour`, starting at position
zero. -/
def mergeRanges : List Iv → List Iv
  | [] => []
  | a :: rest => mergeInto a rest

/-- The state of `updatedRanges` after the two scanning phases of
`toggleSleepHour` and before the sort-and-coalesce post-processing: remove
the hour if present, otherwise extend an adjacent interval or push the
brand-new singleton `[hour, hour + 1]` at the end. -/
def toggleStage (hour : Nat) (ranges : List Iv) : List Iv :=
  match removeHour hour ranges with
  | some l => l
  | none =>
    match extendHour hour ranges with
    | some l => l
    | none => ranges ++ [(hour, hour + 1)]

/-- The interval-list update performed by one `toggleSleepHour` call
(spec operation `toggleHour`): the two scanning phases followed by the
sort by start and the coalescing pass. -/
def toggleHour (hour : Nat) (ranges : List Iv) : List Iv :=
  mergeRanges (sortRanges (toggleStage hour ranges))

/-- The standing invariant of a stored interval list: sorted ascending by
start, pairwise non-overlapping and non-adjacent (each end strictly below
the next start), and every interval inside `0 ≤ start < end ≤ 24`. -/
def Invariant (l : List Iv) : Prop :=
  l.Sorted leStart ∧ List.Chain' (fun a b => a.2 < b.1) l ∧
    ∀ p ∈ l, p.1 < p.2 ∧ p.2 ≤ 24

/-- Executable check of an adjacent-pairs condition. -/
def chainB (f : Iv → Iv → Bool) : List Iv → Bool
  | [] => true
  | [_] => true
  | a :: b :: rest => f a b && chainB f (b :: rest)

theorem chainB_iff (f : Iv → Iv → Bool) (R : Iv → Iv → Prop)
    (hf : ∀ a b, f a b = true ↔ R a b) :
    ∀ l, chainB f l = true ↔ List.Chain' R l := by
  intro l
  induction l with
  | nil => simp [chainB]
  | cons a rest ih =>
    cases rest with
    | nil => simp [chainB]
    | cons b t =>
      rw [List.chain'_cons]
      simp only [chainB, Bool.and_eq_true]
      rw [hf, ih]

/-- Executable check of the standing invariant. -/
def invariantB (l : List Iv) : Bool :=
  chainB (fun a b => decide (a.1 ≤ b.1)) l &&
  (chainB (fun a b => decide (a.2 < b.1)) l &&
    l.all fun p => decide (p.1 < p.2) && decide (p.2 ≤ 24))

theorem invariantB_iff (l : List Iv) : invariantB l = true ↔ Invariant l := by
  unfold invariantB Invariant
  rw [Bool.and_eq_true, Bool.and_eq_true]
  rw [chainB_iff _ leStart (fun a b => by simp [leStart]) l]
  rw [chainB_iff _ (fun a b => a.2 < b.1) (fun a b => by simp) l]
  rw [List.chain'_iff_pairwise]
  simp [List.all_eq_true, List.Sorted]

instance : DecidablePred Invariant := fun l =>
  decidable_of_iff (invariantB l = true) (invariantB_iff l)

/-- Hour `g` is covered by the list under plain linear membership
`start ≤ g < end`. -/
def Covers (l : List Iv) (g : Nat) : Prop := ∃ p ∈ l, p.1 ≤ g ∧ g < p.2

instance (l : List Iv) (g : Nat) : Decidable (Covers l g) :=
  inferInstanceAs (Decidable (∃ p ∈ l, _ ∧ _))

theorem covers_cons {p : Iv} {l : List Iv} {g : Nat} :
    Covers (p :: l) g ↔ (p.1 ≤ g ∧ g < p.2) ∨ Covers l g := by
  simp [Covers]

theorem covers_append {l₁ l₂ : List Iv} {g : Nat} :
    Covers (l₁ ++ l₂) g ↔ Covers l₁ g ∨ Covers l₂ g := by
  constructor
  · rintro ⟨p, hp, hg⟩
    rcases List.mem_append.mp hp with h | h
    · exact Or.inl ⟨p, h, hg⟩
    · exact Or.inr ⟨p, h, hg⟩
  · rintro (⟨p, hp, hg⟩ | ⟨p, hp, hg⟩)
    · exact ⟨p, List.mem_append_left _ hp, hg⟩
    · exact ⟨p, List.mem_append_right _ hp, hg⟩

theorem covers_perm {l l' : List Iv} (h : l.Perm l') (g : Nat) :
    Covers l g ↔ Covers l' g := by
  constructor <;> rintro ⟨p, hp, hg⟩
  · exact ⟨p, h.mem_iff.mp hp, hg⟩
  · exact ⟨p, h.mem_iff.mpr hp, hg⟩

/-- Under the separation invariant every interval after the head starts
strictly after the head's end. -/
theorem sep_head_lt {x : Iv} {l : List Iv}
    (hc : List.Chain' (fun a b => a.2 < b.1) (x :: l))
    (hv : ∀ p ∈ l, p.1 < p.2) : ∀ p ∈ l, x.2 < p.1 := by
  induction l generalizing x with
  | nil => simp
  | cons y ys ih =>
    rw [List.chain'_cons] at hc
    intro p hp
    rcases List.mem_cons.mp hp with rfl | hp
    · exact hc.1
    · have h1 := ih hc.2 (fun q hq => hv q (List.mem_cons_of_mem _ hq)) p hp
      have h2 := hv y (List.mem_cons_self _ _)
      omega

theorem removeHour_none_iff {hour : Nat} {l : List Iv} :
    removeHour hour l = none ↔ ¬ Covers l hour := by
  induction l with
  | nil => simp [removeHour, Covers]
  | cons q rest ih =>
    obtain ⟨s, e⟩ := q
    rw [covers_cons]
    simp only [removeHour]
    by_cases hin : s ≤ hour ∧ hour < e
    · simp [hin]
    · rw [if_neg hin]
      cases hrec : removeHour hour rest with
      | some l' =>
        have hcov : Covers rest hour := by
          by_contra hnc
          rw [ih.mpr hnc] at hrec
          exact Option.noConfusion hrec
        simp only [hrec]
        constructor
        · intro h; exact Option.noConfusion h
        · intro h; exact absurd (Or.inr hcov) h
      | none =>
        have hnc : ¬ Covers rest hour := ih.mp hrec
        simp only [hrec]
        constructor
        · intro _
          rintro (hhead | hc)
          · exact hin hhead
          · exact hnc hc
        · intro _; trivial

theorem covers_cons_mk {s e : Nat} {l : List Iv} {g : Nat} :
    Covers ((s, e) :: l) g ↔ (s ≤ g ∧ g < e) ∨ Covers l g := covers_cons

theorem removeHour_valid {hour : Nat} {l l' : List Iv}
    (h : removeHour hour l = some l')
    (hv : ∀ p ∈ l, p.1 < p.2 ∧ p.2 ≤ 24) :
    ∀ p ∈ l', p.1 < p.2 ∧ p.2 ≤ 24 := by
  induction l generalizing l' with
  | nil => exact Option.noConfusion h
  | cons q rest ih =>
    obtain ⟨s, e⟩ := q
    have hse1 : s < e := (hv (s, e) (List.mem_cons_self _ _)).1
    have hse2 : e ≤ 24 := (hv (s, e) (List.mem_cons_self _ _)).2
    have hrest : ∀ p ∈ rest, p.1 < p.2 ∧ p.2 ≤ 24 :=
      fun p hp => hv p (List.mem_cons_of_mem _ hp)
    simp only [removeHour] at h
    by_cases hin : s ≤ hour ∧ hour < e
    · rw [if_pos hin] at h
      injection h with h
      subst h
      intro p hp
      split_ifs at hp with h1 h2 h3
      · exact hrest p hp
      · rcases List.mem_cons.mp hp with rfl | hp
        · show s + 1 < e ∧ e ≤ 24
          omega
        · exact hrest p hp
      · rcases List.mem_cons.mp hp with rfl | hp
        · show s < e - 1 ∧ e - 1 ≤ 24
          omega
        · exact hrest p hp
      · rcases List.mem_cons.mp hp with rfl | hp
        · show s < hour ∧ hour ≤ 24
          omega
        · rcases List.mem_cons.mp hp with rfl | hp
          · show hour + 1 < e ∧ e ≤ 24
            omega
          · exact hrest p hp
    · rw [if_neg hin] at h
      cases hrec : removeHour hour rest with
      | none => rw [hrec] at h; exact Option.noConfusion h
      | some l'' =>
        simp only [hrec] at h
        injection h with h
        subst h
        intro p hp
        rcases List.mem_cons.mp hp with rfl | hp
        · exact hv _ (List.mem_cons_self _ _)
        · exact ih hrec hrest p hp

theorem extendHour_valid {hour : Nat} {l l' : List Iv}
    (h : extendHour hour l = some l') (hh : hour < 24)
    (hv : ∀ p ∈ l, p.1 < p.2 ∧ p.2 ≤ 24) :
    ∀ p ∈ l', p.1 < p.2 ∧ p.2 ≤ 24 := by
  induction l generalizing l' with
  | nil => exact Option.noConfusion h
  | cons q rest ih =>
    obtain ⟨s, e⟩ := q
    have hse1 : s < e := (hv (s, e) (List.mem_cons_self _ _)).1
    have hse2 : e ≤ 24 := (hv (s, e) (List.mem_cons_self _ _)).2
    have hrest : ∀ p ∈ rest, p.1 < p.2 ∧ p.2 ≤ 24 :=
      fun p hp => hv p (List.mem_cons_of_mem _ hp)
    simp only [extendHour] at h
    by_cases h1 : hour = e
    · rw [if_pos h1] at h; injection h with h; subst h
      intro p hp
      rcases List.mem_cons.mp hp with rfl | hp
      · show s < e + 1 ∧ e + 1 ≤ 24
        omega
      · exact hrest p hp
    · rw [if_neg h1] at h
      by_cases h2 : hour + 1 = s
      · rw [if_pos h2] at h; injection h with h; subst h
        intro p hp
        rcases List.mem_cons.mp hp with rfl | hp
        · show s - 1 < e ∧ e ≤ 24
          omega
        · exact hrest p hp
      · rw [if_neg h2] at h
        cases hrec : extendHour hour rest with
        | none => rw [hrec] at h; exact Option.noConfusion h
        | some l'' =>
          simp only [hrec] at h; injection h with h; subst h
          intro p hp
          rcases List.mem_cons.mp hp with rfl | hp
          · exact hv _ (List.mem_cons_self _ _)
          · exact ih hrec hrest p hp

theorem toggleStage_valid {hour : Nat} {l : List Iv} (hh : hour < 24)
    (hv : ∀ p ∈ l, p.1 < p.2 ∧ p.2 ≤ 24) :
    ∀ p ∈ toggleStage hour l, p.1 < p.2 ∧ p.2 ≤ 24 := by
  unfold toggleStage
  cases hr : removeHour hour l with
  | some l' => exact removeHour_valid hr hv
  | none =>
    cases he : extendHour hour l with
    | some l' => exact extendHour_valid he hh hv
    | none =>
      intro p hp
      rcases List.mem_append.mp hp with hp | hp
      · exact hv p hp
      · have heq : p = (hour, hour + 1) := List.mem_singleton.mp hp
        subst heq
        show hour < hour + 1 ∧ hour + 1 ≤ 24
        omega

theorem removeHour_covers {hour : Nat} {l l' : List Iv}
    (h : removeHour hour l = some l')
    (hv : ∀ p ∈ l, p.1 < p.2)
    (hc : List.Chain' (fun a b => a.2 < b.1) l) :
    ∀ g, Covers l' g ↔ (Covers l g ∧ g ≠ hour) := by
  induction l generalizing l' with
  | nil => exact Option.noConfusion h
  | cons q rest ih =>
    obtain ⟨s, e⟩ := q
    have hse : s < e := hv (s, e) (List.mem_cons_self _ _)
    have hrestv : ∀ p ∈ rest, p.1 < p.2 := fun p hp => hv p (List.mem_cons_of_mem _ hp)
    have hsep : ∀ p ∈ rest, e < p.1 := sep_head_lt hc hrestv
    have hrestc := (List.chain'_cons'.mp hc).2
    simp only [removeHour] at h
    by_cases hin : s ≤ hour ∧ hour < e
    · rw [if_pos hin] at h
      injection h with h; subst h
      have hnrest : ¬ Covers rest hour := by
        rintro ⟨p, hp, hg⟩
        have h1 := hsep p hp
        omega
      intro g
      rw [covers_cons_mk]
      split_ifs with h1 h2 h3
      · constructor
        · intro hcov
          refine ⟨Or.inr hcov, ?_⟩
          rintro rfl
          exact hnrest hcov
        · rintro ⟨hg | hcov, hne⟩
          · exfalso; omega
          · exact hcov
      · rw [covers_cons_mk]
        constructor
        · rintro (hg | hcov)
          · exact ⟨Or.inl (by omega), by omega⟩
          · refine ⟨Or.inr hcov, ?_⟩
            rintro rfl
            exact hnrest hcov
        · rintro ⟨hg | hcov, hne⟩
          · exact Or.inl (by omega)
          · exact Or.inr hcov
      · rw [covers_cons_mk]
        constructor
        · rintro (hg | hcov)
          · exact ⟨Or.inl (by omega), by omega⟩
          · refine ⟨Or.inr hcov, ?_⟩
            rintro rfl
            exact hnrest hcov
        · rintro ⟨hg | hcov, hne⟩
          · exact Or.inl (by omega)
          · exact Or.inr hcov
      · rw [covers_cons_mk, covers_cons_mk]
        constructor
        · rintro (hg | hg | hcov)
          · exact ⟨Or.inl (by omega), by omega⟩
          · exact ⟨Or.inl (by omega), by omega⟩
          · refine ⟨Or.inr hcov, ?_⟩
            rintro rfl
            exact hnrest hcov
        · rintro ⟨hg | hcov, hne⟩
          · rcases Nat.lt_or_ge g hour with hlt | hge
            · exact Or.inl (by omega)
            · exact Or.inr (Or.inl (by omega))
          · exact Or.inr (Or.inr hcov)
    · rw [if_neg hin] at h
      cases hrec : removeHour hour rest with
      | none => rw [hrec] at h; exact Option.noConfusion h
      | some l'' =>
        simp only [hrec] at h
        injection h with h; subst h
        intro g
        rw [covers_cons_mk, covers_cons_mk, ih hrec hrestv hrestc g]
        constructor
        · rintro (hg | ⟨hcov, hne⟩)
          · refine ⟨Or.inl hg, ?_⟩
            rintro rfl
            exact hin hg
          · exact ⟨Or.inr hcov, hne⟩
        · rintro ⟨hg | hcov, hne⟩
          · exact Or.inl hg
          · exact Or.inr ⟨hcov, hne⟩

theorem extendHour_covers {hour : Nat} {l l' : List Iv}
    (h : extendHour hour l = some l')
    (hv : ∀ p ∈ l, p.1 < p.2) :
    ∀ g, Covers l' g ↔ (Covers l g ∨ g = hour) := by
  induction l generalizing l' with
  | nil => exact Option.noConfusion h
  | cons q rest ih =>
    obtain ⟨s, e⟩ := q
    have hse : s < e := hv (s, e) (List.mem_cons_self _ _)
    have hrestv : ∀ p ∈ rest, p.1 < p.2 := fun p hp => hv p (List.mem_cons_of_mem _ hp)
    simp only [extendHour] at h
    by_cases h1 : hour = e
    · rw [if_pos h1] at h; injection h with h; subst h
      intro g
      rw [covers_cons_mk, covers_cons_mk]
      constructor
      · rintro (hg | hcov)
        · rcases Nat.lt_or_ge g e with hlt | hge
          · exact Or.inl (Or.inl (by omega))
          · exact Or.inr (by omega)
        · exact Or.inl (Or.inr hcov)
      · rintro ((hg | hcov) | rfl)
        · exact Or.inl (by omega)
        · exact Or.inr hcov
        · exact Or.inl (by omega)
    · rw [if_neg h1] at h
      by_cases h2 : hour + 1 = s
      · rw [if_pos h2] at h; injection h with h; subst h
        intro g
        rw [covers_cons_mk, covers_cons_mk]
        constructor
        · rintro (hg | hcov)
          · rcases Nat.lt_or_ge g s with hlt | hge
            · exact Or.inr (by omega)
            · exact Or.inl (Or.inl (by omega))
          · exact Or.inl (Or.inr hcov)
        · rintro ((hg | hcov) | rfl)
          · exact Or.inl (by omega)
          · exact Or.inr hcov
          · exact Or.inl (by omega)
      · rw [if_neg h2] at h
        cases hrec : extendHour hour rest with
        | none => rw [hrec] at h; exact Option.noConfusion h
        | some l'' =>
          simp only [hrec] at h; injection h with h; subst h
          intro g
          rw [covers_cons_mk, covers_cons_mk, ih hrec hrestv g]
          tauto

theorem toggleStage_covers {hour : Nat} {l : List Iv}
    (hv : ∀ p ∈ l, p.1 < p.2)
    (hc : List.Chain' (fun a b => a.2 < b.1) l) :
    ∀ g, Covers (toggleStage hour l) g ↔
      ((Covers l g ∧ g ≠ hour) ∨ (¬ Covers l hour ∧ g = hour)) := by
  unfold toggleStage
  cases hr : removeHour hour l with
  | some l' =>
    have hcov : Covers l hour := by
      by_contra hnc
      rw [removeHour_none_iff.mpr hnc] at hr
      exact Option.noConfusion hr
    intro g
    rw [removeHour_covers hr hv hc g]
    constructor
    · rintro ⟨hg, hne⟩; exact Or.inl ⟨hg, hne⟩
    · rintro (⟨hg, hne⟩ | ⟨hnc, rfl⟩)
      · exact ⟨hg, hne⟩
      · exact absurd hcov hnc
  | none =>
    have hnc : ¬ Covers l hour := removeHour_none_iff.mp hr
    cases he : extendHour hour l with
    | some l' =>
      intro g
      rw [extendHour_covers he hv g]
      constructor
      · rintro (hg | rfl)
        · by_cases hgh : g = hour
          · subst hgh; exact absurd hg hnc
          · exact Or.inl ⟨hg, hgh⟩
        · exact Or.inr ⟨hnc, rfl⟩
      · rintro (⟨hg, _⟩ | ⟨_, rfl⟩)
        · exact Or.inl hg
        · exact Or.inr rfl
    | none =>
      intro g
      rw [covers_append]
      constructor
      · rintro (hg | hg)
        · by_cases hgh : g = hour
          · subst hgh; exact absurd hg hnc
          · exact Or.inl ⟨hg, hgh⟩
        · rcases hg with ⟨p, hp, hg⟩
          have heq : p = (hour, hour + 1) := List.mem_singleton.mp hp
          subst heq
          have hg' : hour ≤ g ∧ g < hour + 1 := hg
          exact Or.inr ⟨hnc, by omega⟩
      · rintro (⟨hg, _⟩ | ⟨_, heq⟩)
        · exact Or.inl hg
        · rw [heq]
          exact Or.inr ⟨(hour, hour + 1), List.mem_singleton_self _,
            Nat.le_refl hour, Nat.lt_succ_self hour⟩

theorem mergeInto_valid {l : List Iv} : ∀ {a : Iv},
    a.1 < a.2 ∧ a.2 ≤ 24 → (∀ p ∈ l, p.1 < p.2 ∧ p.2 ≤ 24) →
    ∀ p ∈ mergeInto a l, p.1 < p.2 ∧ p.2 ≤ 24 := by
  induction l with
  | nil =>
    intro a ha _ p hp
    have heq := List.mem_singleton.mp hp
    subst heq
    exact ha
  | cons b rest ih =>
    intro a ha hl
    simp only [mergeInto]
    split_ifs with hm
    · apply ih
      · have hb := hl b (List.mem_cons_self _ _)
        refine ⟨?_, ?_⟩
        · show a.1 < max a.2 b.2
          have h1 : a.2 ≤ max a.2 b.2 := Nat.le_max_left _ _
          omega
        · show max a.2 b.2 ≤ 24
          omega
      · exact fun p hp => hl p (List.mem_cons_of_mem _ hp)
    · intro p hp
      rcases List.mem_cons.mp hp with rfl | hp
      · exact ha
      · exact ih (hl b (List.mem_cons_self _ _))
          (fun q hq => hl q (List.mem_cons_of_mem _ hq)) p hp

theorem mergeInto_head {l : List Iv} : ∀ {a : Iv},
    ∃ e t, mergeInto a l = (a.1, e) :: t ∧ a.2 ≤ e := by
  induction l with
  | nil => intro a; exact ⟨a.2, [], rfl, Nat.le_refl _⟩
  | cons b rest ih =>
    intro a
    simp only [mergeInto]
    split_ifs with hm
    · obtain ⟨e, t, heq, hle⟩ := ih (a := (a.1, max a.2 b.2))
      refine ⟨e, t, heq, ?_⟩
      have h1 : a.2 ≤ max a.2 b.2 := Nat.le_max_left _ _
      omega
    · exact ⟨a.2, mergeInto b rest, rfl, Nat.le_refl _⟩

theorem mergeInto_sep {l : List Iv} : ∀ {a : Iv},
    (a :: l).Sorted leStart → (∀ p ∈ a :: l, p.1 < p.2) →
    List.Chain' (fun x y => x.2 < y.1) (mergeInto a l) := by
  induction l with
  | nil => intro a _ _; exact List.chain'_singleton a
  | cons b rest ih =>
    intro a hs hv
    rw [List.sorted_cons] at hs
    obtain ⟨hab, hs'⟩ := hs
    simp only [mergeInto]
    split_ifs with hm
    · apply ih
      · rw [List.sorted_cons]
        refine ⟨?_, (List.sorted_cons.mp hs').2⟩
        intro p hp
        exact hab p (List.mem_cons_of_mem _ hp)
      · intro p hp
        rcases List.mem_cons.mp hp with rfl | hp
        · have hav := hv a (List.mem_cons_self _ _)
          show a.1 < max a.2 b.2
          have h1 : a.2 ≤ max a.2 b.2 := Nat.le_max_left _ _
          omega
        · exact hv p (List.mem_cons_of_mem _ (List.mem_cons_of_mem _ hp))
    · obtain ⟨e, t, heq, hle⟩ := mergeInto_head (l := rest) (a := b)
      have hchain := ih hs' (fun p hp => hv p (List.mem_cons_of_mem _ hp))
      rw [heq] at hchain
      rw [heq]
      exact List.Chain'.cons (show a.2 < b.1 by omega) hchain

theorem mergeInto_covers {l : List Iv} : ∀ {a : Iv},
    (a :: l).Sorted leStart →
    ∀ g, Covers (mergeInto a l) g ↔ Covers (a :: l) g := by
  induction l with
  | nil => intro a _ g; exact Iff.rfl
  | cons b rest ih =>
    intro a hs g
    rw [List.sorted_cons] at hs
    obtain ⟨hab, hs'⟩ := hs
    simp only [mergeInto]
    split_ifs with hm
    · have hsort2 : ((a.1, max a.2 b.2) :: rest).Sorted leStart := by
        rw [List.sorted_cons]
        exact ⟨fun p hp => hab p (List.mem_cons_of_mem _ hp), (List.sorted_cons.mp hs').2⟩
      rw [ih hsort2 g]
      have h1 : a.1 ≤ b.1 := hab b (List.mem_cons_self _ _)
      rw [covers_cons, covers_cons, covers_cons]
      constructor
      · rintro (hg | hcov)
        · have hg' : a.1 ≤ g ∧ g < max a.2 b.2 := hg
          rcases Nat.lt_or_ge g a.2 with hlt | hge
          · exact Or.inl ⟨hg'.1, hlt⟩
          · refine Or.inr (Or.inl ⟨?_, ?_⟩) <;> omega
        · exact Or.inr (Or.inr hcov)
      · rintro (hg | hg | hcov)
        · refine Or.inl ⟨hg.1, ?_⟩
          show g < max a.2 b.2
          have h2 := hg.2
          omega
        · refine Or.inl ⟨?_, ?_⟩
          · show a.1 ≤ g
            have h2 := hg.1
            omega
          · show g < max a.2 b.2
            have h2 := hg.2
            omega
        · exact Or.inr hcov
    · simp only [covers_cons]
      apply or_congr Iff.rfl
      rw [ih hs' g]
      exact covers_cons

theorem mergeRanges_valid {l : List Iv}
    (hl : ∀ p ∈ l, p.1 < p.2 ∧ p.2 ≤ 24) :
    ∀ p ∈ mergeRanges l, p.1 < p.2 ∧ p.2 ≤ 24 := by
  cases l with
  | nil => intro p hp; exact absurd hp (List.not_mem_nil p)
  | cons a rest =>
    exact mergeInto_valid (hl a (List.mem_cons_self _ _))
      (fun q hq => hl q (List.mem_cons_of_mem _ hq))

theorem mergeRanges_sep {l : List Iv} (hs : l.Sorted leStart)
    (hv : ∀ p ∈ l, p.1 < p.2) :
    List.Chain' (fun x y => x.2 < y.1) (mergeRanges l) := by
  cases l with
  | nil => exact List.chain'_nil
  | cons a rest => exact mergeInto_sep hs hv

theorem mergeRanges_covers {l : List Iv} (hs : l.Sorted leStart) :
    ∀ g, Covers (mergeRanges l) g ↔ Covers l g := by
  cases l with
  | nil => intro g; exact Iff.rfl
  | cons a rest => exact mergeInto_covers hs

/-- Separation together with validity forces the list to be sorted by
start. -/
theorem sep_sorted {l : List Iv}
    (hc : List.Chain' (fun a b => a.2 < b.1) l)
    (hv : ∀ p ∈ l, p.1 < p.2) : l.Sorted leStart := by
  induction l with
  | nil => exact List.sorted_nil
  | cons a rest ih =>
    rw [List.sorted_cons]
    constructor
    · intro p hp
      have h1 := sep_head_lt hc (fun q hq => hv q (List.mem_cons_of_mem _ hq)) p hp
      have h2 := hv a (List.mem_cons_self _ _)
      show a.1 ≤ p.1
      omega
    · exact ih (List.chain'_cons'.mp hc).2 (fun q hq => hv q (List.mem_cons_of_mem _ hq))

theorem sortRanges_sorted (l : List Iv) : (sortRanges l).Sorted leStart :=
  List.sorted_insertionSort leStart l

theorem sortRanges_perm (l : List Iv) : (sortRanges l).Perm l :=
  List.perm_insertionSort leStart l

/-- One `toggleSleepHour` update preserves the standing invariant. -/
theorem toggleHour_invariant {hour : Nat} {l : List Iv}
    (hl : Invariant l) (hh : hour < 24) : Invariant (toggleHour hour l) := by
  obtain ⟨_, _, hv⟩ := hl
  have hstage : ∀ p ∈ toggleStage hour l, p.1 < p.2 ∧ p.2 ≤ 24 :=
    toggleStage_valid hh hv
  have hsortv : ∀ p ∈ sortRanges (toggleStage hour l), p.1 < p.2 ∧ p.2 ≤ 24 :=
    fun p hp => hstage p ((sortRanges_perm _).subset hp)
  have hsorted := sortRanges_sorted (toggleStage hour l)
  have hmv := mergeRanges_valid hsortv
  have hmsep := mergeRanges_sep hsorted (fun p hp => (hsortv p hp).1)
  exact ⟨sep_sorted hmsep (fun p hp => (hmv p hp).1), hmsep, hmv⟩

/-- One `toggleSleepHour` update flips the toggled hour's coverage and
leaves every other hour's coverage unchanged. -/
theorem toggleHour_covers {hour : Nat} {l : List Iv} (hl : Invariant l) :
    ∀ g, Covers (toggleHour hour l) g ↔
      ((Covers l g ∧ g ≠ hour) ∨ (¬ Covers l hour ∧ g = hour)) := by
  obtain ⟨_, hc, hv⟩ := hl
  intro g
  unfold toggleHour
  rw [mergeRanges_covers (sortRanges_sorted _) g,
      covers_perm (sortRanges_perm _) g,
      toggleStage_covers (fun p hp => (hv p hp).1) hc g]

/-- C1: for every subject, every date, and every sequence of toggleHour
calls with hours in `[0, 24)` starting from an invariant-satisfying (in
particular empty) stored list, the stored interval list afterwards is
sorted ascending by start, pairwise non-overlapping and non-adjacent (no
`i` with `end_i >= start_{i+1}`), and every interval satisfies
`0 <= start < end <= 24`. -/
theorem toggle_sequence_preserves_invariant (hs : List Nat) (l : List Iv)
    (hl : Invariant l) (hhs : ∀ h ∈ hs, h < 24) :
    Invariant (hs.foldl (fun acc h => toggleHour h acc) l) := by
  induction hs generalizing l with
  | nil => exact hl
  | cons h t ih =>
    exact ih (toggleHour h l)
      (toggleHour_invariant hl (hhs h (List.mem_cons_self _ _)))
      (fun x hx => hhs x (List.mem_cons_of_mem _ hx))

theorem toggle_sequence_preserves_invariant_witness :
    Invariant ([23, 5, 7, 6].foldl (fun acc h => toggleHour h acc) []) :=
  toggle_sequence_preserves_invariant [23, 5, 7, 6] [] (by decide) (by decide)

/-- C3: one `toggleHour` call flips exactly the toggled hour: under linear
membership `start <= g < end`, the toggled hour is covered in the result
iff it was not covered before, and every other hour's coverage is
unchanged. -/
theorem toggleHour_flips_exactly_hour (hour : Nat) (l : List Iv)
    (hl : Invariant l) (_hh : hour < 24) :
    (Covers (toggleHour hour l) hour ↔ ¬ Covers l hour) ∧
    ∀ g, g ≠ hour → (Covers (toggleHour hour l) g ↔ Covers l g) := by
  refine ⟨?_, ?_⟩
  · rw [toggleHour_covers hl hour]
    constructor
    · rintro (⟨_, hne⟩ | ⟨hnc, _⟩)
      · exact absurd rfl hne
      · exact hnc
    · intro hnc
      exact Or.inr ⟨hnc, rfl⟩
  · intro g hg
    rw [toggleHour_covers hl g]
    constructor
    · rintro (⟨hcov, _⟩ | ⟨_, heq⟩)
      · exact hcov
      · exact absurd heq hg
    · intro hcov
      exact Or.inl ⟨hcov, hg⟩

theorem toggleHour_flips_exactly_hour_witness :
    Covers (toggleHour 7 [(5, 9)]) 7 ↔ ¬ Covers [(5, 9)] 7 :=
  (toggleHour_flips_exactly_hour 7 [(5, 9)] (by decide) (by decide)).1

/-- C2: toggling the same hour twice in succession (with no other toggles
between) yields an interval set canonically equal to the original: the
two sets cover exactly the same hours. -/
theorem toggleHour_twice_canonical (hour : Nat) (l : List Iv)
    (hl : Invariant l) (hh : hour < 24) :
    ∀ g, Covers (toggleHour hour (toggleHour hour l)) g ↔ Covers l g := by
  intro g
  have hl' := toggleHour_invariant hl hh
  rw [toggleHour_covers hl' g, toggleHour_covers hl g, toggleHour_covers hl hour]
  by_cases hg : g = hour
  · subst hg
    by_cases hcov : Covers l g <;> simp [hcov]
  · simp [hg]

theorem toggleHour_twice_canonical_witness :
    Covers (toggleHour 7 (toggleHour 7 [(5, 9)])) 5 ↔ Covers [(5, 9)] 5 :=
  toggleHour_twice_canonical 7 [(5, 9)] (by decide) (by decide) 5

/-- C7: with stored intervals `[[5,7],[8,10]]`, toggling hour 7 finds no
containing interval, and the extend scan matches `hour == end` on the
first interval (checked before `hour + 1 == start` on any interval),
producing `[[5,8],[8,10]]`; the coalescing pass then merges the touching
pair, so the final stored list is `[[5,10]]`. -/
theorem toggle_scenario4_first_match_then_merge :
    removeHour 7 [(5, 7), (8, 10)] = none ∧
    extendHour 7 [(5, 7), (8, 10)] = some [(5, 8), (8, 10)] ∧
    toggleHour 7 [(5, 7), (8, 10)] = [(5, 10)] := by decide

/-- C6 (amended): in a toggle-only history — any sequence of
`toggleSleepHour` calls with hours in `[0, 24)` starting from an
invariant-satisfying (in particular empty) stored list — every interval
`toggleSleepHour` persists satisfies `start < end` within a single day.
The bulk test-data generator does not guarantee this (see the
counterexample), and a toggle on a store polluted by the generator
re-persists the wraparound interval unchanged: toggling hour 5 over
`[[22, 4]]` stores `[[5, 6], [22, 4]]`. -/
theorem toggleHour_writes_start_lt_end (hs : List Nat) (l : List Iv)
    (hl : Invariant l) (hhs : ∀ h ∈ hs, h < 24) :
    (∀ p ∈ hs.foldl (fun acc h => toggleHour h acc) l, p.1 < p.2) ∧
    toggleHour 5 [(22, 4)] = [(5, 6), (22, 4)] := by
  refine ⟨?_, by decide⟩
  have hinv : Invariant (hs.foldl (fun acc h => toggleHour h acc) l) := by
    induction hs generalizing l with
    | nil => exact hl
    | cons h t ih =>
      exact ih (toggleHour h l)
        (toggleHour_invariant hl (hhs h (List.mem_cons_self _ _)))
        (fun x hx => hhs x (List.mem_cons_of_mem _ hx))
  exact fun p hp => (hinv.2.2 p hp).1

theorem toggleHour_writes_start_lt_end_witness :
    (5, 6).1 < (5, 6).2 ∧ toggleHour 5 [(22, 4)] = [(5, 6), (22, 4)] :=
  ⟨(toggleHour_writes_start_lt_end [5] [] (by decide) (by decide)).1
      (5, 6) (by decide),
    (toggleHour_writes_start_lt_end [5] [] (by decide) (by decide)).2⟩

/-- The circular hour step of the occupancy loops in
`updateDataAndRefreshChart` and `getSleepDataForRange`:
`currentHour = (currentHour + 1) % 24`. -/
def stepHour (h : Nat) : Nat := (h + 1) % 24

/-- Fuel-indexed model of the source's `while (currentHour !== end)` loop:
the list of hours the loop visits when it stops within `fuel` steps, and
`none` when it does not. -/
def hourWalk : Nat → Nat → Nat → Option (List Nat)
  | 0, _, _ => none
  | fuel + 1, h, e =>
    if h = e then some []
    else (hourWalk fuel (stepHour h) e).map (h :: ·)

/-- Against an end bound of 24 or more the circular loop never stops,
because the stepped hour always stays below 24. -/
theorem hourWalk_diverges {e : Nat} (he : 24 ≤ e) :
    ∀ fuel h, h < 24 → hourWalk fuel h e = none := by
  intro fuel
  induction fuel with
  | zero => intro h _; rfl
  | succ f ih =>
    intro h hh
    unfold hourWalk
    rw [if_neg (by omega), ih (stepHour h) (Nat.mod_lt _ (by omega))]
    rfl

/-- For an interval that stays inside hour 23 the loop steps linearly from
`s` to `e` and stops, visiting exactly the hours of `[s, e)`, each once,
in increasing order. -/
theorem hourWalk_some : ∀ (d s e fuel : Nat), e = s + d → e ≤ 23 → d < fuel →
    ∃ vs, hourWalk fuel s e = some vs ∧ List.Pairwise (· < ·) vs ∧
      ∀ h, h ∈ vs ↔ s ≤ h ∧ h < e := by
  intro d
  induction d with
  | zero =>
    intro s e fuel he _hle hf
    cases fuel with
    | zero => omega
    | succ f =>
      refine ⟨[], ?_, List.Pairwise.nil, ?_⟩
      · unfold hourWalk; rw [if_pos (by omega)]
      · intro h
        simp only [List.not_mem_nil, false_iff]
        omega
  | succ d ih =>
    intro s e fuel he hle hf
    cases fuel with
    | zero => omega
    | succ f =>
      have hstep : stepHour s = s + 1 := Nat.mod_eq_of_lt (by omega)
      obtain ⟨vs, hvs, hpw, hmem⟩ := ih (s + 1) e f (by omega) hle (by omega)
      refine ⟨s :: vs, ?_, ?_, ?_⟩
      · unfold hourWalk
        rw [if_neg (by omega), hstep, hvs]
        rfl
      · refine List.Pairwise.cons ?_ hpw
        intro h hh
        have hb := (hmem h).mp hh
        omega
      · intro h
        rw [List.mem_cons, hmem h]
        omega

/-- The hours visited by one interval's stepping loop.  Twenty-five fuel
steps decide the loop: every stopping run stops within 24 steps (the hour
state lives in `[0, 24)`), and `hourWalk_diverges` covers the rest. -/
def visitHours (s e : Nat) : Option (List Nat) := hourWalk 25 s e

/-- C4: the claim that the circular stepping terminates for every stored
interval is wrong.  Toggling hour 23 on an empty list stores `[23, 24]`,
and on that interval the loop never stops: the hour is reduced modulo 24
and so never equals 24, whatever the number of steps taken. -/
theorem occupancy_stepping_diverges_on_23_24 :
    toggleHour 23 [] = [(23, 24)] ∧
    ∀ fuel, hourWalk fuel 23 24 = none :=
  ⟨by decide, fun fuel => hourWalk_diverges (Nat.le_refl 24) fuel 23 (by omega)⟩

/-- The adult branch of `generateRandomSleepRanges` (`numRanges === 1`):
the random draws `r1` and `r2` stand for `Math.floor(Math.random() * 4)`;
the start hour is `r1 + 22`, the duration `r2 + 6`, and the stored pair is
`[startHour % 24, (startHour + duration) % 24]`. -/
def generateRandomSleepRangesAdult (r1 r2 : Fin 4) : List Iv :=
  sortRanges [((22 + r1.val) % 24, (22 + r1.val + (6 + r2.val)) % 24)]

/-- The baby branch of `generateRandomSleepRanges` (`numRanges > 1`): each
draw gives a start hour `Math.floor(Math.random() * 24)` and a duration
`Math.floor(Math.random() * 3) + 2`; each stored pair is
`[startHour, (startHour + duration) % 24]`, sorted by start at the end. -/
def generateRandomSleepRangesBaby (draws : List (Fin 24 × Fin 3)) : List Iv :=
  sortRanges (draws.map fun rd => (rd.1.val, (rd.1.val + (2 + rd.2.val)) % 24))

/-- C6 (counterexample): the bulk test-data generator can store an
interval whose end is numerically below its start: with both draws zero
the adult range is `[22, 4]` (22:00 plus six hours, reduced modulo 24). -/
theorem generator_stores_wraparound_interval :
    generateRandomSleepRangesAdult 0 0 = [(22, 4)] ∧
    ¬ ((22, 4) : Iv).1 < ((22, 4) : Iv).2 := by decide

/-- A stored day record, the date-keyed value of the `sleepData` store;
each subject's interval list is optional because `saveSleepData` writes
only the toggled subject's field into the record. -/
structure SleepRecord where
  baby : Option (List Iv)
  user1 : Option (List Iv)
  user2 : Option (List Iv)
deriving DecidableEq

/-- The three per-hour counter vectors (`sleepCounts` in
`getSleepDataForRange`, `chartData` columns in
`updateDataAndRefreshChart`). -/
structure SleepCounts where
  baby : List Nat
  user1 : List Nat
  user2 : List Nat
deriving DecidableEq

/-- `Array(24).fill(0)`. -/
def zeroCounts : List Nat := List.replicate 24 0

/-- `sleepCounts[userKey][hour]++` applied at each visited hour in loop
order. -/
def addVisits (counts : List Nat) (hs : List Nat) : List Nat :=
  hs.foldl (fun c h => c.set h (c.getD h 0 + 1)) counts

/-- `chartData[currentHour][userKey] = 1` applied at each visited hour in
loop order. -/
def setVisits (counts : List Nat) (hs : List Nat) : List Nat :=
  hs.foldl (fun c h => c.set h 1) counts

/-- The per-subject counting loop of `getSleepDataForRange` for one day:
each interval's circular walk bumps its visited hours; a walk that never
stops makes the whole computation unavailable. -/
def countUser : List Iv → List Nat → Option (List Nat)
  | [], c => some c
  | iv :: rest, c =>
    (visitHours iv.1 iv.2).bind fun hs => countUser rest (addVisits c hs)

/-- The per-subject marking loop of `updateDataAndRefreshChart`: each
interval's circular walk sets its visited hours to one. -/
def occUser : List Iv → List Nat → Option (List Nat)
  | [], c => some c
  | iv :: rest, c =>
    (visitHours iv.1 iv.2).bind fun hs => occUser rest (setVisits c hs)

/-- A missing or absent subject field is skipped
(`if (dayData[userKey] && Array.isArray(dayData[userKey]))`). -/
def countUserOpt (ol : Option (List Iv)) (c : List Nat) : Option (List Nat) :=
  match ol with
  | none => some c
  | some l => countUser l c

/-- A missing subject field reads as the empty list through
`getSleepData`, which marks nothing. -/
def occUserOpt (ol : Option (List Iv)) (c : List Nat) : Option (List Nat) :=
  match ol with
  | none => some c
  | some l => occUser l c

/-- One day of `getSleepDataForRange`: a missing record contributes
nothing, otherwise the subjects are processed in source order. -/
def countDay (day : Option SleepRecord) (c : SleepCounts) : Option SleepCounts :=
  match day with
  | none => some c
  | some r =>
    (countUserOpt r.baby c.baby).bind fun b =>
      (countUserOpt r.user1 c.user1).bind fun u1 =>
        (countUserOpt r.user2 c.user2).map fun u2 => ⟨b, u1, u2⟩

/-- Day offsets examined by `getSleepDataForRange`: `i` runs from
`days - 1` down to `0` and the date examined is the reference date minus
`i` days, so the offsets run oldest to newest. -/
def dayOffsets (days : Nat) : List Int :=
  (List.range days).reverse.map fun i => -(i : Int)

/-- `getSleepDataForRange(days)` (spec operation `aggregate`): per-subject
counts of the visits each hour received across the examined days.  The
store maps a day offset relative to the current reference date to the
stored record for that date. -/
def getSleepDataForRange (days : Nat) (store : Int → Option SleepRecord) :
    Option SleepCounts :=
  (dayOffsets days).foldl (fun oc d => oc.bind (countDay (store d)))
    (some ⟨zeroCounts, zeroCounts, zeroCounts⟩)

/-- The daily occupancy vectors computed by `updateDataAndRefreshChart`
for one date (spec operation `occupancy`): fresh zero vectors with each
subject's intervals marked. -/
def occupancyChartData (day : Option SleepRecord) : Option SleepCounts :=
  match day with
  | none => some ⟨zeroCounts, zeroCounts, zeroCounts⟩
  | some r =>
    (occUserOpt r.baby zeroCounts).bind fun b =>
      (occUserOpt r.user1 zeroCounts).bind fun u1 =>
        (occUserOpt r.user2 zeroCounts).map fun u2 => ⟨b, u1, u2⟩

/-- Elementwise sum of two count vectors. -/
def addCounts (a b : List Nat) : List Nat := List.zipWith (· + ·) a b

def addSleepCounts (a b : SleepCounts) : SleepCounts :=
  ⟨addCounts a.baby b.baby, addCounts a.user1 b.user1, addCounts a.user2 b.user2⟩

/-- The quantity the aggregation property compares against, following the
spec's words: the elementwise sum of `occupancy(date)` over the `days`
most recent days, iterated oldest to newest. -/
def occupancySum (days : Nat) (store : Int → Option SleepRecord) :
    Option SleepCounts :=
  (dayOffsets days).foldl
    (fun oc d => oc.bind fun acc =>
      (occupancyChartData (store d)).map (addSleepCounts acc))
    (some ⟨zeroCounts, zeroCounts, zeroCounts⟩)

/-- The standing invariant on an optional stored field. -/
def OptionInv : Option (List Iv) → Prop
  | none => True
  | some l => Invariant l

/-- The standing invariant on an optional stored record. -/
def RecordInv : Option SleepRecord → Prop
  | none => True
  | some r => OptionInv r.baby ∧ OptionInv r.user1 ∧ OptionInv r.user2

instance : DecidablePred OptionInv := fun ol =>
  match ol with
  | none => inferInstanceAs (Decidable True)
  | some l => inferInstanceAs (Decidable (Invariant l))

instance : DecidablePred RecordInv := fun day =>
  match day with
  | none => inferInstanceAs (Decidable True)
  | some r => inferInstanceAs (Decidable (OptionInv r.baby ∧ _ ∧ _))

theorem invariant_tail {p : Iv} {l : List Iv} (h : Invariant (p :: l)) :
    Invariant l :=
  ⟨(List.sorted_cons.mp h.1).2, (List.chain'_cons'.mp h.2.1).2,
    fun q hq => h.2.2 q (List.mem_cons_of_mem _ hq)⟩

theorem getD_set_ne : ∀ (b : List Nat) (h i v : Nat), h ≠ i →
    (b.set h v).getD i 0 = b.getD i 0 := by
  intro b
  induction b with
  | nil => intro h i v _; rfl
  | cons b0 bt ih =>
    intro h i v hne
    cases h with
    | zero =>
      cases i with
      | zero => exact absurd rfl hne
      | succ j => simp [List.set]
    | succ h' =>
      cases i with
      | zero => simp [List.set]
      | succ j =>
        simp only [List.set, List.getD_cons_succ]
        exact ih h' j v (by omega)

theorem zip_getD : ∀ (c b : List Nat), c.length = b.length → ∀ h,
    (addCounts c b).getD h 0 = c.getD h 0 + b.getD h 0 := by
  intro c
  induction c with
  | nil =>
    intro b hb h
    cases b with
    | nil => rfl
    | cons b0 bt => exact absurd hb (by simp)
  | cons c0 ct ih =>
    intro b hb h
    cases b with
    | nil => exact absurd hb (by simp)
    | cons b0 bt =>
      cases h with
      | zero => rfl
      | succ j =>
        simp only [addCounts, List.zipWith_cons_cons, List.getD_cons_succ]
        exact ih bt (by simpa using hb) j

theorem addCounts_set : ∀ (c b : List Nat) (h v : Nat),
    addCounts c (b.set h v) = (addCounts c b).set h (c.getD h 0 + v) := by
  intro c
  induction c with
  | nil => intro b h v; rfl
  | cons c0 ct ih =>
    intro b h v
    cases b with
    | nil => rfl
    | cons b0 bt =>
      cases h with
      | zero => rfl
      | succ j =>
        simp only [addCounts, List.set, List.zipWith_cons_cons, List.getD_cons_succ]
        exact congrArg _ (ih bt j v)

theorem setVisits_length : ∀ (hs b : List Nat),
    (setVisits b hs).length = b.length := by
  intro hs
  induction hs with
  | nil => intro b; rfl
  | cons v t ih =>
    intro b
    rw [show setVisits b (v :: t) = setVisits (b.set v 1) t from rfl, ih,
      List.length_set]

theorem setVisits_getD_not_mem : ∀ (hs b : List Nat) (h : Nat), h ∉ hs →
    (setVisits b hs).getD h 0 = b.getD h 0 := by
  intro hs
  induction hs with
  | nil => intro b h _; rfl
  | cons v t ih =>
    intro b h hmem
    rw [show setVisits b (v :: t) = setVisits (b.set v 1) t from rfl,
      ih (b.set v 1) h fun hc => hmem (List.mem_cons_of_mem _ hc)]
    refine getD_set_ne b v h 1 fun heq => hmem ?_
    rw [heq]
    exact List.mem_cons_self _ _

theorem addVisits_addCounts : ∀ (vs c b : List Nat),
    c.length = b.length → vs.Nodup → (∀ h ∈ vs, b.getD h 0 = 0) →
    addVisits (addCounts c b) vs = addCounts c (setVisits b vs) := by
  intro vs
  induction vs with
  | nil => intro c b _ _ _; rfl
  | cons h t ih =>
    intro c b hlen hnd hz
    rw [show addVisits (addCounts c b) (h :: t) =
      addVisits ((addCounts c b).set h ((addCounts c b).getD h 0 + 1)) t from rfl]
    rw [show setVisits b (h :: t) = setVisits (b.set h 1) t from rfl]
    have h0 : b.getD h 0 = 0 := hz h (List.mem_cons_self _ _)
    have hgd : (addCounts c b).getD h 0 = c.getD h 0 := by
      rw [zip_getD c b hlen h, h0, Nat.add_zero]
    rw [hgd, ← addCounts_set c b h 1]
    apply ih c (b.set h 1)
    · rw [List.length_set]; exact hlen
    · exact (List.nodup_cons.mp hnd).2
    · intro h' hh'
      have hne : h ≠ h' := by
        rintro rfl
        exact (List.nodup_cons.mp hnd).1 hh'
      rw [getD_set_ne b h h' 1 hne]
      exact hz h' (List.mem_cons_of_mem _ hh')

theorem occUser_length : ∀ (l : List Iv) (b v : List Nat),
    occUser l b = some v → v.length = b.length := by
  intro l
  induction l with
  | nil =>
    intro b v h
    injection h with h
    rw [← h]
  | cons iv rest ih =>
    intro b v h
    simp only [occUser] at h
    cases hv : visitHours iv.1 iv.2 with
    | none => rw [hv] at h; exact Option.noConfusion h
    | some hs =>
      rw [hv, Option.some_bind] at h
      rw [ih (setVisits b hs) v h, setVisits_length]

theorem getD_zeroCounts : ∀ h, zeroCounts.getD h 0 = 0 := by
  have hgen : ∀ (n h : Nat), (List.replicate n 0).getD h 0 = 0 := by
    intro n
    induction n with
    | zero => intro h; rfl
    | succ m ih =>
      intro h
      cases h with
      | zero => rfl
      | succ j => exact ih j
  exact hgen 24

theorem addCounts_zero : ∀ (c : List Nat) (n : Nat), c.length = n →
    addCounts c (List.replicate n 0) = c := by
  intro c
  induction c with
  | nil => intro n h; rw [← h]; rfl
  | cons c0 ct ih =>
    intro n h
    cases n with
    | zero => exact absurd h (by simp)
    | succ m =>
      have hstep : addCounts (c0 :: ct) (List.replicate (m + 1) 0) =
          (c0 + 0) :: addCounts ct (List.replicate m 0) := rfl
      rw [hstep, Nat.add_zero, ih m (by simpa using h)]

theorem addCounts_zeroCounts (c : List Nat) (h : c.length = 24) :
    addCounts c zeroCounts = c := addCounts_zero c 24 h

/-- On an invariant list, counting visits on top of `c` (with `b` holding
no prior marks on covered hours) equals adding the day's 0/1 marking
vector to `c`; both sides are unavailable together when some interval's
walk never stops. -/
theorem countUser_eq_occUser : ∀ (l : List Iv), Invariant l →
    ∀ (c b : List Nat), c.length = b.length →
    (∀ h, Covers l h → b.getD h 0 = 0) →
    countUser l (addCounts c b) = (occUser l b).map (addCounts c) := by
  intro l
  induction l with
  | nil => intro _ c b _ _; rfl
  | cons iv rest ih =>
    intro hl c b hlen hz
    obtain ⟨s, e⟩ := iv
    have hse : s < e := (hl.2.2 (s, e) (List.mem_cons_self _ _)).1
    have he24 : e ≤ 24 := (hl.2.2 (s, e) (List.mem_cons_self _ _)).2
    have hrest := invariant_tail hl
    simp only [countUser, occUser]
    by_cases he : e ≤ 23
    · obtain ⟨vs, hvs, hpw, hmem⟩ :=
        hourWalk_some (e - s) s e 25 (by omega) he (by omega)
      rw [show visitHours s e = hourWalk 25 s e from rfl, hvs,
        Option.some_bind, Option.some_bind]
      have hnd : vs.Nodup := hpw.imp Nat.ne_of_lt
      have hzvs : ∀ h ∈ vs, b.getD h 0 = 0 := by
        intro h hh
        exact hz h ⟨(s, e), List.mem_cons_self _ _, (hmem h).mp hh⟩
      rw [addVisits_addCounts vs c b hlen hnd hzvs]
      apply ih hrest c (setVisits b vs)
      · rw [setVisits_length]; exact hlen
      · intro h hcov
        obtain ⟨p, hp, hph⟩ := hcov
        have hsep : e < p.1 :=
          sep_head_lt hl.2.1 (fun q hq => (hrest.2.2 q hq).1) p hp
        have hnot : h ∉ vs := by
          intro hh
          have hlt := ((hmem h).mp hh).2
          have hp1 := hph.1
          omega
        rw [setVisits_getD_not_mem vs b h hnot]
        exact hz h ⟨p, List.mem_cons_of_mem _ hp, hph⟩
    · have hdiv : visitHours s e = none :=
        hourWalk_diverges (by omega) 25 s (by omega)
      rw [hdiv]
      rfl

theorem countUserOpt_eq (ol : Option (List Iv)) (hol : OptionInv ol)
    (c : List Nat) (hlen : c.length = 24) :
    countUserOpt ol c = (occUserOpt ol zeroCounts).map (addCounts c) := by
  cases ol with
  | none =>
    show some c = some (addCounts c zeroCounts)
    rw [addCounts_zeroCounts c hlen]
  | some l =>
    show countUser l c = (occUser l zeroCounts).map (addCounts c)
    have hmain := countUser_eq_occUser l hol c zeroCounts
      (by rw [hlen]; rfl) (fun h _ => getD_zeroCounts h)
    rw [addCounts_zeroCounts c hlen] at hmain
    exact hmain

theorem occUserOpt_length {ol : Option (List Iv)} {b : List Nat}
    (h : occUserOpt ol zeroCounts = some b) : b.length = 24 := by
  cases ol with
  | none =>
    injection h with h
    rw [← h]
    rfl
  | some l =>
    have hb := occUser_length l zeroCounts b h
    rw [hb]
    rfl

theorem occupancyChartData_length {day : Option SleepRecord} {v : SleepCounts}
    (h : occupancyChartData day = some v) :
    v.baby.length = 24 ∧ v.user1.length = 24 ∧ v.user2.length = 24 := by
  cases day with
  | none =>
    injection h with h
    rw [← h]
    exact ⟨rfl, rfl, rfl⟩
  | some r =>
    simp only [occupancyChartData] at h
    cases hb : occUserOpt r.baby zeroCounts with
    | none => rw [hb] at h; exact Option.noConfusion h
    | some b =>
      rw [hb, Option.some_bind] at h
      cases hu1 : occUserOpt r.user1 zeroCounts with
      | none => rw [hu1] at h; exact Option.noConfusion h
      | some u1 =>
        rw [hu1, Option.some_bind] at h
        cases hu2 : occUserOpt r.user2 zeroCounts with
        | none => rw [hu2] at h; exact Option.noConfusion h
        | some u2 =>
          rw [hu2] at h
          injection h with h
          rw [← h]
          exact ⟨occUserOpt_length hb, occUserOpt_length hu1, occUserOpt_length hu2⟩

theorem countDay_eq (day : Option SleepRecord) (hday : RecordInv day)
    (c : SleepCounts) (h1 : c.baby.length = 24) (h2 : c.user1.length = 24)
    (h3 : c.user2.length = 24) :
    countDay day c = (occupancyChartData day).map (addSleepCounts c) := by
  cases day with
  | none =>
    show some c = some (addSleepCounts c ⟨zeroCounts, zeroCounts, zeroCounts⟩)
    simp only [addSleepCounts]
    rw [addCounts_zeroCounts _ h1, addCounts_zeroCounts _ h2,
      addCounts_zeroCounts _ h3]
  | some r =>
    obtain ⟨hb, hu1, hu2⟩ := hday
    simp only [countDay, occupancyChartData,
      countUserOpt_eq r.baby hb c.baby h1,
      countUserOpt_eq r.user1 hu1 c.user1 h2,
      countUserOpt_eq r.user2 hu2 c.user2 h3]
    cases occUserOpt r.baby zeroCounts with
    | none => rfl
    | some b =>
      cases occUserOpt r.user1 zeroCounts with
      | none => rfl
      | some u1 =>
        cases occUserOpt r.user2 zeroCounts with
        | none => rfl
        | some u2 => rfl

theorem foldl_bind_none (ds : List Int)
    (f : Int → SleepCounts → Option SleepCounts) :
    ds.foldl (fun oc d => oc.bind (f d)) none = none := by
  induction ds with
  | nil => rfl
  | cons d t ih => exact ih

theorem addCounts_length24 {a b : List Nat} (ha : a.length = 24)
    (hb : b.length = 24) : (addCounts a b).length = 24 := by
  unfold addCounts
  rw [List.length_zipWith, ha, hb]
  rfl

theorem fold_count_eq_occ (store : Int → Option SleepRecord)
    (hstore : ∀ d, RecordInv (store d)) :
    ∀ (ds : List Int) (c : SleepCounts), c.baby.length = 24 →
    c.user1.length = 24 → c.user2.length = 24 →
    ds.foldl (fun oc d => oc.bind (countDay (store d))) (some c) =
      ds.foldl (fun oc d => oc.bind fun acc =>
        (occupancyChartData (store d)).map (addSleepCounts acc)) (some c) := by
  intro ds
  induction ds with
  | nil => intro c _ _ _; rfl
  | cons d t ih =>
    intro c h1 h2 h3
    show t.foldl _ ((some c).bind (countDay (store d))) =
      t.foldl _ ((some c).bind fun acc =>
        (occupancyChartData (store d)).map (addSleepCounts acc))
    rw [Option.some_bind, Option.some_bind,
      countDay_eq (store d) (hstore d) c h1 h2 h3]
    cases hocc : occupancyChartData (store d) with
    | none =>
      show t.foldl _ none = t.foldl _ none
      rw [foldl_bind_none, foldl_bind_none]
    | some v =>
      obtain ⟨hv1, hv2, hv3⟩ := occupancyChartData_length hocc
      exact ih (addSleepCounts c v) (addCounts_length24 h1 hv1)
        (addCounts_length24 h2 hv2) (addCounts_length24 h3 hv3)

/-- C5: for every number of days and every invariant-satisfying store,
`getSleepDataForRange(days)` equals the elementwise sum of the daily
occupancy vectors over the `days` most recent days ending at the current
reference date (for every subject and hour); when a stored interval makes
the stepping loop diverge, both computations are unavailable together. -/
theorem aggregate_eq_occupancy_sum (days : Nat)
    (store : Int → Option SleepRecord)
    (hstore : ∀ d, RecordInv (store d)) (_hdays : 1 ≤ days) :
    getSleepDataForRange days store = occupancySum days store := by
  unfold getSleepDataForRange occupancySum
  exact fold_count_eq_occ store hstore (dayOffsets days)
    ⟨zeroCounts, zeroCounts, zeroCounts⟩ rfl rfl rfl

/-- The store of spec Scenario 5: seven stored days (offsets -6..0 from
the reference date), each holding `baby = [[0, 2]]` and nothing for the
other subjects. -/
def scenario5Store : Int → Option SleepRecord := fun d =>
  if -6 ≤ d ∧ d ≤ 0 then some ⟨some [(0, 2)], none, none⟩ else none

theorem aggregate_eq_occupancy_sum_witness :
    getSleepDataForRange 7 scenario5Store = occupancySum 7 scenario5Store :=
  aggregate_eq_occupancy_sum 7 scenario5Store
    (fun d => by unfold scenario5Store; split <;> decide) (by omega)

/-- C10 (counterexample): on Scenario 5's store the aggregate's baby count
at hour 0 is not 2. -/
theorem aggregate_scenario5_not_two :
    (getSleepDataForRange 7 scenario5Store).map (fun sc => sc.baby.getD 0 0) ≠
      some 2 := by decide

/-- C10 (amended): `aggregate(7)` over seven stored days each holding
`baby = [[0, 2]]` and no data for the other subjects yields a baby count
vector with value 7 at hours 0 and 1 and 0 at every other hour, and
all-zero vectors for the other subjects. -/
theorem aggregate_scenario5_value :
    getSleepDataForRange 7 scenario5Store =
      some ⟨[7, 7, 0, 0, 0, 0, 0, 0, 0, 0, 0, 0, 0, 0, 0, 0, 0, 0, 0, 0, 0, 0,
        0, 0], zeroCounts, zeroCounts⟩ := by decide

/-- A working-list entry of `updatedRanges`: the interval value together
with the index of the cached pair object it aliases (`[...sleepRanges]`
copies the outer array but shares the inner pair arrays), or `none` for a
pair freshly created by the toggle. -/
abbrev TIv := Option Nat × Iv

/-- Writes an in-place pair mutation through to the aliased cache slot. -/
def setObj (objs : List Iv) : Option Nat → Iv → List Iv
  | none, _ => objs
  | some j, v => objs.set j v

/-- Phase one of `toggleSleepHour` on the tagged working list, recording
every in-place pair mutation (`[i][0]++`, `[i][1]--`, `[i][1] = hour`) in
the cache-object table; `splice` touches only the copied outer array. -/
def removeHourT (hour : Nat) : List TIv → List Iv → Option (List TIv × List Iv)
  | [], _ => none
  | (tag, (s, e)) :: rest, objs =>
    if s ≤ hour ∧ hour < e then
      some (if e - s = 1 then (rest, objs)
            else if hour = s then
              ((tag, (s + 1, e)) :: rest, setObj objs tag (s + 1, e))
            else if hour = e - 1 then
              ((tag, (s, e - 1)) :: rest, setObj objs tag (s, e - 1))
            else
              ((tag, (s, hour)) :: (none, (hour + 1, e)) :: rest,
                setObj objs tag (s, hour)))
    else
      match removeHourT hour rest objs with
      | some r => some ((tag, (s, e)) :: r.1, r.2)
      | none => none

/-- Phase two of `toggleSleepHour` on the tagged working list. -/
def extendHourT (hour : Nat) : List TIv → List Iv → Option (List TIv × List Iv)
  | [], _ => none
  | (tag, (s, e)) :: rest, objs =>
    if hour = e then some ((tag, (s, e + 1)) :: rest, setObj objs tag (s, e + 1))
    else if hour + 1 = s then
      some ((tag, (s - 1, e)) :: rest, setObj objs tag (s - 1, e))
    else
      match extendHourT hour rest objs with
      | some r => some ((tag, (s, e)) :: r.1, r.2)
      | none => none

def leStartT (a b : TIv) : Prop := a.2.1 ≤ b.2.1

instance : DecidableRel leStartT := fun a b =>
  inferInstanceAs (Decidable (a.2.1 ≤ b.2.1))

/-- The sort step on the tagged working list (pair objects reordered, not
mutated). -/
def sortRangesT (l : List TIv) : List TIv := List.insertionSort leStartT l

/-- The coalescing loop on the tagged working list:
`updatedRanges[i][1] = Math.max(...)` mutates the pair object at position
`i`, while the `splice` drops the next entry only from the working
array. -/
def mergeIntoT (a : TIv) : List TIv → List Iv → List TIv × List Iv
  | [], objs => ([a], objs)
  | b :: rest, objs =>
    if b.2.1 ≤ a.2.2 then
      mergeIntoT (a.1, (a.2.1, max a.2.2 b.2.2)) rest
        (setObj objs a.1 (a.2.1, max a.2.2 b.2.2))
    else
      ((a :: (mergeIntoT b rest objs).1, (mergeIntoT b rest objs).2))

def mergeRangesT : List TIv → List Iv → List TIv × List Iv
  | [], objs => ([], objs)
  | a :: rest, objs => mergeIntoT a rest objs

/-- Tags each cached pair with its position (`[...sleepRanges]` aliases
them all). -/
def tagList (l : List Iv) : List TIv := l.enum.map fun p => (some p.1, p.2)

def toggleStageT (hour : Nat) (tagged : List TIv) (objs : List Iv) :
    List TIv × List Iv :=
  match removeHourT hour tagged objs with
  | some r => r
  | none =>
    match extendHourT hour tagged objs with
    | some r => r
    | none => (tagged ++ [(none, (hour, hour + 1))], objs)

/-- Observable state for one (subject, date) cell: the persisted record
field and the in-memory cache entry. -/
structure AppSt where
  db : Option (List Iv)
  cache : Option (List Iv)
deriving DecidableEq

/-- `getSleepData`: the cached list when present, else read-through from
the store (defaulting to empty), caching what was read. -/
def getSleepData (st : AppSt) : List Iv × AppSt :=
  match st.cache with
  | some l => (l, st)
  | none => (st.db.getD [], ⟨st.db, some (st.db.getD [])⟩)

/-- One `toggleSleepHour` call on the state of one (subject, date) cell.
`keyValid` is false when the subject key is unknown (logged, no-op);
`writeOk` is false when the persistence write fails (logged; the record is
not written, and the cache entry is still the original array of pair
objects, including every in-place mutation the toggle made through the
shared references).  The middle component is the JavaScript return value
of `toggleSleepHour`, which has no return statement; the last component
records whether an error was logged. -/
def toggleSleepHour (keyValid writeOk : Bool) (hour : Nat) (st : AppSt) :
    AppSt × Option (List Iv) × Bool :=
  if keyValid = false then (st, none, true)
  else
    let gr := getSleepData st
    let stage := toggleStageT hour (tagList gr.1) gr.1
    let final := mergeRangesT (sortRangesT stage.1) stage.2
    if writeOk then
      (⟨some (final.1.map Prod.snd), some (final.1.map Prod.snd)⟩, none, false)
    else
      (⟨gr.2.db, some final.2⟩, none, true)

theorem removeHourT_val (hour : Nat) : ∀ (l : List TIv) (objs : List Iv),
    Option.map (fun r : List TIv × List Iv => r.1.map Prod.snd)
      (removeHourT hour l objs) = removeHour hour (l.map Prod.snd) := by
  intro l
  induction l with
  | nil => intro objs; rfl
  | cons a rest ih =>
    obtain ⟨tag, s, e⟩ := a
    intro objs
    simp only [removeHourT, removeHour, List.map_cons]
    by_cases hin : s ≤ hour ∧ hour < e
    · rw [if_pos hin, if_pos hin]
      split_ifs <;> rfl
    · rw [if_neg hin, if_neg hin]
      cases hrec : removeHourT hour rest objs with
      | none =>
        have h := ih objs
        rw [hrec] at h
        rw [show removeHour hour (rest.map Prod.snd) = none from h.symm]
        rfl
      | some r =>
        have h := ih objs
        rw [hrec] at h
        rw [show removeHour hour (rest.map Prod.snd) =
          some (r.1.map Prod.snd) from h.symm]
        rfl

theorem extendHourT_val (hour : Nat) : ∀ (l : List TIv) (objs : List Iv),
    Option.map (fun r : List TIv × List Iv => r.1.map Prod.snd)
      (extendHourT hour l objs) = extendHour hour (l.map Prod.snd) := by
  intro l
  induction l with
  | nil => intro objs; rfl
  | cons a rest ih =>
    obtain ⟨tag, s, e⟩ := a
    intro objs
    simp only [extendHourT, extendHour, List.map_cons]
    by_cases h1 : hour = e
    · rw [if_pos h1, if_pos h1]
      rfl
    · rw [if_neg h1, if_neg h1]
      by_cases h2 : hour + 1 = s
      · rw [if_pos h2, if_pos h2]
        rfl
      · rw [if_neg h2, if_neg h2]
        cases hrec : extendHourT hour rest objs with
        | none =>
          have h := ih objs
          rw [hrec] at h
          rw [show extendHour hour (rest.map Prod.snd) = none from h.symm]
          rfl
        | some r =>
          have h := ih objs
          rw [hrec] at h
          rw [show extendHour hour (rest.map Prod.snd) =
            some (r.1.map Prod.snd) from h.symm]
          rfl

theorem orderedInsert_val (a : TIv) : ∀ (l : List TIv),
    (List.orderedInsert leStartT a l).map Prod.snd =
      List.orderedInsert leStart a.2 (l.map Prod.snd) := by
  intro l
  induction l with
  | nil => rfl
  | cons b t ih =>
    simp only [List.orderedInsert, List.map_cons]
    by_cases h : leStartT a b
    · rw [if_pos h, if_pos (show leStart a.2 b.2 from h)]
      rfl
    · rw [if_neg h, if_neg (show ¬ leStart a.2 b.2 from h)]
      simp only [List.map_cons, ih]

theorem sortRangesT_val : ∀ (l : List TIv),
    (sortRangesT l).map Prod.snd = sortRanges (l.map Prod.snd) := by
  intro l
  induction l with
  | nil => rfl
  | cons a t ih =>
    simp only [sortRangesT, sortRanges, List.insertionSort, List.map_cons]
    rw [orderedInsert_val a _]
    simp only [sortRangesT, sortRanges] at ih
    rw [ih]

theorem mergeIntoT_val : ∀ (l : List TIv) (a : TIv) (objs : List Iv),
    (mergeIntoT a l objs).1.map Prod.snd = mergeInto a.2 (l.map Prod.snd) := by
  intro l
  induction l with
  | nil => intro a objs; rfl
  | cons b t ih =>
    intro a objs
    simp only [mergeIntoT, mergeInto, List.map_cons]
    split_ifs with h
    · exact ih (a.1, (a.2.1, max a.2.2 b.2.2)) (setObj objs a.1 _)
    · simp only [List.map_cons, ih b objs]

theorem mergeRangesT_val : ∀ (l : List TIv) (objs : List Iv),
    (mergeRangesT l objs).1.map Prod.snd = mergeRanges (l.map Prod.snd) := by
  intro l objs
  cases l with
  | nil => rfl
  | cons a t => exact mergeIntoT_val t a objs

theorem tagList_val (l : List Iv) : (tagList l).map Prod.snd = l := by
  unfold tagList
  rw [List.map_map]
  exact List.enum_map_snd l

theorem toggleStageT_val (hour : Nat) (l : List Iv) :
    (toggleStageT hour (tagList l) l).1.map Prod.snd = toggleStage hour l := by
  unfold toggleStageT toggleStage
  cases hr : removeHourT hour (tagList l) l with
  | some r =>
    have h := removeHourT_val hour (tagList l) l
    rw [hr, tagList_val] at h
    rw [show removeHour hour l = some (r.1.map Prod.snd) from h.symm]
  | none =>
    have h := removeHourT_val hour (tagList l) l
    rw [hr, tagList_val] at h
    rw [show removeHour hour l = none from h.symm]
    cases he : extendHourT hour (tagList l) l with
    | some r =>
      have h2 := extendHourT_val hour (tagList l) l
      rw [he, tagList_val] at h2
      rw [show extendHour hour l = some (r.1.map Prod.snd) from h2.symm]
    | none =>
      have h2 := extendHourT_val hour (tagList l) l
      rw [he, tagList_val] at h2
      rw [show extendHour hour l = none from h2.symm]
      simp only [List.map_append, tagList_val]
      rfl

/-- C9 (amended): for every valid subject, hour, and date, with the write
succeeding, `toggleSleepHour` persists the updated interval list (the
store and the cache both receive the toggled list), but its JavaScript
return value is `undefined`, not the list: the function has no return
statement. -/
theorem toggleSleepHour_persists_but_returns_undefined (hour : Nat)
    (st : AppSt) :
    (toggleSleepHour true true hour st).2.1 = none ∧
    (toggleSleepHour true true hour st).1.db =
      some (toggleHour hour (getSleepData st).1) ∧
    (toggleSleepHour true true hour st).1.cache =
      some (toggleHour hour (getSleepData st).1) := by
  refine ⟨rfl, ?_, ?_⟩ <;>
  · show some ((mergeRangesT
      (sortRangesT (toggleStageT hour (tagList (getSleepData st).1)
        (getSleepData st).1).1)
      (toggleStageT hour (tagList (getSleepData st).1)
        (getSleepData st).1).2).1.map Prod.snd) =
      some (toggleHour hour (getSleepData st).1)
    rw [mergeRangesT_val, sortRangesT_val, toggleStageT_val]
    rfl

/-- C9 (counterexample): on a valid subject, hour 5, and a date with no
stored data, with the write succeeding, `toggleSleepHour` persists
`[[5, 6]]` but returns `undefined` rather than the updated list. -/
theorem toggleSleepHour_returns_undefined :
    (toggleSleepHour true true 5 ⟨none, none⟩).1.db = some [(5, 6)] ∧
    (toggleSleepHour true true 5 ⟨none, none⟩).2.1 = none ∧
    (none : Option (List Iv)) ≠ some [(5, 6)] := by decide

/-- C8 (amended): when the persistence write during a toggle fails, the
failure is logged and the persisted record is left unchanged; the cache
entry, however, is still the original array of pair objects and keeps any
in-place mutation the toggle already made to them, so a subsequent get
may reflect the attempted toggle. -/
theorem toggleSleepHour_write_failure_keeps_db (hour : Nat) (st : AppSt) :
    (toggleSleepHour true false hour st).1.db = st.db ∧
    (toggleSleepHour true false hour st).2.2 = true := by
  constructor
  · show (getSleepData st).2.db = st.db
    obtain ⟨db, cache⟩ := st
    cases cache <;> rfl
  · rfl

/-- C8 (counterexample): with `[[5, 7]]` persisted and nothing cached, a
toggle of hour 5 whose write fails leaves the persisted record unchanged,
but a subsequent get returns the cached, mutated list `[[6, 7]]`, not the
prior list `[[5, 7]]`. -/
theorem toggleSleepHour_write_failure_mutates_cache :
    (getSleepData ⟨some [(5, 7)], none⟩).1 = [(5, 7)] ∧
    (toggleSleepHour true false 5 ⟨some [(5, 7)], none⟩).1.db =
      some [(5, 7)] ∧
    (getSleepData (toggleSleepHour true false 5 ⟨some [(5, 7)], none⟩).1).1 =
      [(6, 7)] ∧
    ([(6, 7)] : List Iv) ≠ [(5, 7)] := by decide

example : toggleHour 5 [] = [(5, 6)] := by decide
example : toggleHour 5 [(5, 6)] = [] := by decide
example : toggleHour 7 [(5, 9)] = [(5, 7), (8, 9)] := by decide
example : toggleHour 7 [(5, 7), (8, 10)] = [(5, 10)] := by decide
example : toggleHour 23 [] = [(23, 24)] := by decide

end SleepTracker
